import Mathlib

/-!
Verification development for the radix-trie implementation in
`src/utils/RadixTrie.py` (classes `RadixNode` and `RadixTrie`).

Strings are modelled as `List Char` (Python `str`), node dictionaries as
association lists with Python-`dict` get/set semantics, and recursive
methods as fuel-indexed functions: running out of fuel yields a distinct
`spin` result (unbounded recursion in Python), while `err` models a raised
exception (`IndexError` from `word[0]` on an empty string, or a failing
`assert child is not None`).

A second, heap-based model (`NodeData` / `findA` / `addA`) additionally
models Python object identity and the `functools.cache` decorator on
`RadixNode.find`, which is keyed on `(node identity, word, loop)` and never
invalidated by `add`.
-/

set_option autoImplicit false

/-- A node of the radix trie: `prefix` (called `pfx` here), `is_leaf`, and
the `children` dictionary mapping a character to a child node.  The `root`
back-reference of the Python class is not stored: every node's `root` field
is the trie's root, so `find` below takes the root as an explicit argument. -/
inductive RadixNode : Type where
  | mk : List Char → Bool → List (Char × RadixNode) → RadixNode

def RadixNode.pfx : RadixNode → List Char
  | .mk p _ _ => p

def RadixNode.is_leaf : RadixNode → Bool
  | .mk _ l _ => l

def RadixNode.children : RadixNode → List (Char × RadixNode)
  | .mk _ _ c => c

/-- `d.get(c, None)` on the children dictionary. -/
def getChild (c : Char) : List (Char × RadixNode) → Option RadixNode
  | [] => none
  | (k, v) :: rest => if k = c then some v else getChild c rest

/-- `d[c] = v` on the children dictionary: replace the binding in place if
the key is present, otherwise append it. -/
def setChild (c : Char) (v : RadixNode) : List (Char × RadixNode) → List (Char × RadixNode)
  | [] => [(c, v)]
  | (k, w) :: rest => if k = c then (c, v) :: rest else (k, w) :: setChild c v rest

/-- `RadixNode.match_prefix`: scan the node prefix `p` and the word `w`
positionally and return `(matching, remaining_prefix, remaining_word)`,
i.e. `(p[:i], p[i:], w[i:])` for the first mismatch position `i`. -/
def matchPre : List Char → List Char → List Char × List Char × List Char
  | [], w => ([], [], w)
  | a :: p, [] => ([], a :: p, [])
  | a :: p, b :: w =>
    if a = b then
      let r := matchPre p w
      (a :: r.1, r.2.1, r.2.2)
    else
      ([], a :: p, b :: w)

/-- Result of a fuel-indexed run of `RadixNode.add`: `ok` returns the
updated node, `err` models a raised exception, `spin` is fuel exhaustion. -/
inductive AddRes : Type where
  | ok : RadixNode → AddRes
  | err : AddRes
  | spin : AddRes

/-- `RadixNode.add(word, is_repeating_prefix)` (lines 109-154 of the
source).  The four insertion cases, in source order:

* case 1: `prefix == word and not is_leaf and not is_repeating_prefix` —
  mark the node as leaf;
* case 2: no child keyed by `word[0]` — attach a new leaf child carrying
  the whole word (`word[0]` on an empty word raises `IndexError`);
* case 3: the child's prefix is fully matched — recurse into the child
  with `matching` (if the word is fully consumed too) or with
  `remaining_word`, passing `is_repeating_prefix` when
  `remaining_word[0] == matching[0]`;
* case 4: partial divergence — shrink the child to `remaining_prefix`,
  interpose a fresh node carrying `matching`, and either mark it as leaf
  (`remaining_word == ""`) or recurse into it with `remaining_word`.
  `matching[0]` on an empty `matching` raises `IndexError`.

The Python method mutates nodes in place; since the nodes form a tree and
`add` never reads the `root` back-reference, in-place mutation is the same
as the functional update performed here. -/
def RadixNode.add : Nat → RadixNode → List Char → Bool → AddRes
  | 0, _, _, _ => AddRes.spin
  | fuel+1, n, word, flag =>
    if n.pfx = word ∧ n.is_leaf = false ∧ flag = false then
      AddRes.ok (RadixNode.mk n.pfx true n.children)
    else
      match word with
      | [] => AddRes.err
      | c :: _ =>
        match getChild c n.children with
        | none =>
          AddRes.ok (RadixNode.mk n.pfx n.is_leaf
            (setChild c (RadixNode.mk word true []) n.children))
        | some child =>
          match matchPre child.pfx word with
          | (m, [], []) =>
            match RadixNode.add fuel child m false with
            | AddRes.ok child2 =>
              AddRes.ok (RadixNode.mk n.pfx n.is_leaf (setChild c child2 n.children))
            | e => e
          | (m, [], d :: rw2) =>
            match m with
            | [] => AddRes.err
            | mc :: _ =>
              match RadixNode.add fuel child (d :: rw2) (decide (d = mc)) with
              | AddRes.ok child2 =>
                AddRes.ok (RadixNode.mk n.pfx n.is_leaf (setChild c child2 n.children))
              | e => e
          | (m, r0 :: rp2, rw) =>
            match m with
            | [] => AddRes.err
            | mc :: _ =>
              match rw with
              | [] =>
                AddRes.ok (RadixNode.mk n.pfx n.is_leaf
                  (setChild mc
                    (RadixNode.mk m true
                      [(r0, RadixNode.mk (r0 :: rp2) child.is_leaf child.children)])
                    n.children))
              | _ =>
                match RadixNode.add fuel
                    (RadixNode.mk m false
                      [(r0, RadixNode.mk (r0 :: rp2) child.is_leaf child.children)])
                    rw false with
                | AddRes.ok newChild =>
                  AddRes.ok (RadixNode.mk n.pfx n.is_leaf (setChild mc newChild n.children))
                | e => e

/-- Result of a fuel-indexed run of `RadixNode.find`. -/
inductive FindRes : Type where
  | ok : Nat → FindRes
  | err : FindRes
  | spin : FindRes
  deriving DecidableEq

/-- `RadixNode.find(word, loop)` (lines 156-178 of the source), with the
trie root passed explicitly (the Python `self.root` back-reference).

* `word[0]` on an empty word raises `IndexError` (`err`);
* if no child is keyed by `word[0]`: return `0` unless the node is a leaf,
  in which case delegate to `root.find(word, loop)` — note this happens
  for both values of `loop`;
* otherwise sum the contributions of the found child and, when the node is
  a leaf and `loop` is set, of `root.children.get(word[0], None)`; a `None`
  second candidate fails the `assert child is not None` (`err`).  A
  candidate contributes `1` (fully matched at a leaf), a recursive
  `find(remaining_word, loop)`, or `0` (prefix not fully matched). -/
def RadixNode.find : Nat → RadixNode → RadixNode → List Char → Bool → FindRes
  | 0, _, _, _, _ => FindRes.spin
  | fuel+1, root, n, word, loop =>
    match word with
    | [] => FindRes.err
    | c :: _ =>
      match getChild c n.children with
      | none =>
        if n.is_leaf then RadixNode.find fuel root root word loop else FindRes.ok 0
      | some child =>
        if n.is_leaf && loop then
          match (match matchPre child.pfx word with
                 | (_, [], []) => FindRes.ok (if child.is_leaf then 1 else 0)
                 | (_, [], rw) => RadixNode.find fuel root child rw loop
                 | _ => FindRes.ok 0) with
          | FindRes.ok k1 =>
            match getChild c root.children with
            | none => FindRes.err
            | some child2 =>
              match (match matchPre child2.pfx word with
                     | (_, [], []) => FindRes.ok (if child2.is_leaf then 1 else 0)
                     | (_, [], rw) => RadixNode.find fuel root child2 rw loop
                     | _ => FindRes.ok 0) with
              | FindRes.ok k2 => FindRes.ok (k1 + k2)
              | e => e
          | e => e
        else
          match matchPre child.pfx word with
          | (_, [], []) => FindRes.ok (if child.is_leaf then 1 else 0)
          | (_, [], rw) => RadixNode.find fuel root child rw loop
          | _ => FindRes.ok 0

/-- The contribution of one candidate child inside the `for child in
children` loop of `RadixNode.find`. -/
def contrib (fuel : Nat) (root child : RadixNode) (word : List Char) (loop : Bool) : FindRes :=
  match matchPre child.pfx word with
  | (_, [], []) => FindRes.ok (if child.is_leaf then 1 else 0)
  | (_, [], rw) => RadixNode.find fuel root child rw loop
  | _ => FindRes.ok 0

/-- The fresh root node created by `RadixTrie.__init__`. -/
def emptyTrie : RadixNode := RadixNode.mk [] false []

/-- `RadixTrie.add(word)`: `self.root.add(word)`.  When the fuel-indexed
run does not return normally the state is left unchanged (in Python the
only raising path, `word[0]` on an empty word, raises before any
mutation). -/
def RadixTrie.add (fuel : Nat) (t : RadixNode) (w : List Char) : RadixNode :=
  match RadixNode.add fuel t w false with
  | AddRes.ok t2 => t2
  | _ => t

/-- `RadixTrie.add_many(words)`: sequential `add`. -/
def RadixTrie.add_many (fuel : Nat) (t : RadixNode) (ws : List (List Char)) : RadixNode :=
  ws.foldl (RadixTrie.add fuel) t

/-- `RadixTrie.is_word(word) = self.root.find(word) > 0`; `none` models a
raised exception (or fuel exhaustion). -/
def RadixTrie.is_word (fuel : Nat) (t : RadixNode) (w : List Char) : Option Bool :=
  match RadixNode.find fuel t t w false with
  | FindRes.ok k => some (decide (0 < k))
  | _ => none

/-- `RadixTrie.is_sentence(string) = self.root.find(string, loop=True) > 0`. -/
def RadixTrie.is_sentence (fuel : Nat) (t : RadixNode) (w : List Char) : Option Bool :=
  match RadixNode.find fuel t t w true with
  | FindRes.ok k => some (decide (0 < k))
  | _ => none

/-- `RadixTrie.possible_sentences(string) = self.root.find(string, loop=True)`. -/
def RadixTrie.possible_sentences (fuel : Nat) (t : RadixNode) (w : List Char) : Option Nat :=
  match RadixNode.find fuel t t w true with
  | FindRes.ok k => some k
  | _ => none

/-- `RadixTrie._count_nodes`: one for the node itself plus the counts of
all children (the `c is not None and c != {}` filter never drops a node).
Indexed by fuel so that it is a structural recursion; any fuel exceeding
the tree depth gives the true count. -/
def countNodesF : Nat → RadixNode → Nat
  | 0, _ => 0
  | fuel+1, n => 1 + (n.children.map (fun p => countNodesF fuel p.2)).sum

/-- `RadixTrie.size() = self._count_nodes(self.root)`. -/
def RadixTrie.size (fuel : Nat) (t : RadixNode) : Nat :=
  countNodesF fuel t

/-- A trie state reachable from a fresh `RadixTrie()` by some sequence of
`add` calls. -/
def Reachable (t : RadixNode) : Prop :=
  ∃ fuel ws, RadixTrie.add_many fuel emptyTrie ws = t

/-- A trie state reachable from a fresh `RadixTrie()` by some sequence of
`add` calls with non-empty words (so the root is never marked as a leaf). -/
def ReachableNE (t : RadixNode) : Prop :=
  ∃ fuel ws, (∀ w ∈ ws, w ≠ ([] : List Char)) ∧ RadixTrie.add_many fuel emptyTrie ws = t

/-- `find` diverges on this configuration: every amount of fuel is
exhausted (in Python: unbounded recursion, ending in `RecursionError`). -/
def FindDiverges (root n : RadixNode) (w : List Char) (loop : Bool) : Prop :=
  ∀ fuel, RadixNode.find fuel root n w loop = FindRes.spin

/-- The structural invariant of the children dictionaries: every key is
the (single) first character of the child's prefix — so in particular
every non-root prefix is non-empty — the keys are unique, and the same
holds recursively in every child. -/
inductive TrieInv : RadixNode → Prop where
  | mk : ∀ (p : List Char) (l : Bool) (ch : List (Char × RadixNode)),
      (∀ c t, (c, t) ∈ ch → t.pfx.head? = some c) →
      (∀ c t, (c, t) ∈ ch → TrieInv t) →
      (ch.map Prod.fst).Nodup →
      TrieInv (RadixNode.mk p l ch)

/-- The invariant of a single children dictionary: every entry's value has
a prefix beginning with its key, every entry's value satisfies `TrieInv`,
and the keys are unique. -/
def ChildrenInv (ch : List (Char × RadixNode)) : Prop :=
  (∀ c t, (c, t) ∈ ch → t.pfx.head? = some c ∧ TrieInv t) ∧ (ch.map Prod.fst).Nodup

/-!  Heap-based model with object identity, for the `functools.cache`
behaviour of `RadixNode.find`.  Nodes live in a list indexed by their id
(Python object identity); the root has id 0.  The cache maps
`(node id, word, loop)` to a previously returned count and is written on
every normal return of `find`; `add` never touches it. -/

/-- The data of one heap node: `prefix`, `is_leaf` and the children
dictionary mapping a character to a child node id. -/
structure NodeData : Type where
  pfx : List Char
  is_leaf : Bool
  children : List (Char × Nat)

/-- `d.get(c, None)` on an id-valued children dictionary. -/
def getChildId (c : Char) : List (Char × Nat) → Option Nat
  | [] => none
  | (k, v) :: rest => if k = c then some v else getChildId c rest

/-- `d[c] = v` on an id-valued children dictionary. -/
def setChildId (c : Char) (v : Nat) : List (Char × Nat) → List (Char × Nat)
  | [] => [(c, v)]
  | (k, w) :: rest => if k = c then (c, v) :: rest else (k, w) :: setChildId c v rest

/-- The `functools.cache` of `RadixNode.find`, keyed on
`(node identity, word, loop)`. -/
abbrev FindCache : Type := List ((Nat × List Char × Bool) × Nat)

def cacheGet (key : Nat × List Char × Bool) : FindCache → Option Nat
  | [] => none
  | (k, v) :: rest => if k = key then some v else cacheGet key rest

def cachePut (key : Nat × List Char × Bool) (v : Nat) (cache : FindCache) : FindCache :=
  cache ++ [(key, v)]

/-- `RadixNode.add` on the heap model (`ns`: the node store, `nid`: the id
of `self`).  Returns the updated store; `none` models an exception or fuel
exhaustion (not reached in the concrete runs below). -/
def addA : Nat → List NodeData → Nat → List Char → Bool → Option (List NodeData)
  | 0, _, _, _, _ => none
  | fuel+1, ns, nid, word, flag =>
    match ns.get? nid with
    | none => none
    | some n =>
      if n.pfx = word ∧ n.is_leaf = false ∧ flag = false then
        some (ns.set nid { n with is_leaf := true })
      else
        match word with
        | [] => none
        | c :: _ =>
          match getChildId c n.children with
          | none =>
            some ((ns ++ [(⟨word, true, []⟩ : NodeData)]).set nid
              { n with children := setChildId c ns.length n.children })
          | some cid =>
            match ns.get? cid with
            | none => none
            | some child =>
              match matchPre child.pfx word with
              | (m, [], []) => addA fuel ns cid m false
              | (m, [], d :: rw2) =>
                match m with
                | [] => none
                | mc :: _ => addA fuel ns cid (d :: rw2) (decide (d = mc))
              | (m, r0 :: rp2, rw) =>
                match m with
                | [] => none
                | mc :: _ =>
                  let ns1 := ns.set cid { child with pfx := r0 :: rp2 }
                  let newId := ns1.length
                  let ns2 := ns1 ++ [⟨m, false, [(r0, cid)]⟩]
                  let ns3 := ns2.set nid { n with children := setChildId mc newId n.children }
                  match rw with
                  | [] => some (ns3.set newId ⟨m, true, [(r0, cid)]⟩)
                  | _ => addA fuel ns3 newId rw false

/-- `RadixNode.find` on the heap model, with the memoization cache
threaded through in evaluation order: a hit returns the cached count
without touching the tree; on a normal (non-raising) return the result is
stored under `(nid, word, loop)`.  `rid` is the root id. -/
def findA : Nat → List NodeData → Nat → FindCache → Nat → List Char → Bool →
    Option Nat × FindCache
  | 0, _, _, cache, _, _, _ => (none, cache)
  | fuel+1, ns, rid, cache, nid, word, loop =>
    match cacheGet (nid, word, loop) cache with
    | some v => (some v, cache)
    | none =>
      match (match ns.get? nid with
             | none => (none, cache)
             | some n =>
               match word with
               | [] => (none, cache)
               | c :: _ =>
                 match getChildId c n.children with
                 | none =>
                   if n.is_leaf then findA fuel ns rid cache rid word loop
                   else (some 0, cache)
                 | some cid =>
                   match ns.get? cid with
                   | none => (none, cache)
                   | some child =>
                     match (match matchPre child.pfx word with
                            | (_, [], []) =>
                              (some (if child.is_leaf then 1 else 0), cache)
                            | (_, [], rw) => findA fuel ns rid cache cid rw loop
                            | _ => (some 0, cache) : Option Nat × FindCache) with
                     | (none, c1) => (none, c1)
                     | (some k1, c1) =>
                       if n.is_leaf && loop then
                         match ns.get? rid with
                         | none => (none, c1)
                         | some rootN =>
                           match getChildId c rootN.children with
                           | none => (none, c1)
                           | some cid2 =>
                             match ns.get? cid2 with
                             | none => (none, c1)
                             | some child2 =>
                               match matchPre child2.pfx word with
                               | (_, [], []) =>
                                 (some (k1 + (if child2.is_leaf then 1 else 0)), c1)
                               | (_, [], rw) =>
                                 match findA fuel ns rid c1 cid2 rw loop with
                                 | (some k2, c2) => (some (k1 + k2), c2)
                                 | (none, c2) => (none, c2)
                               | _ => (some k1, c1)
                       else (some k1, c1) : Option Nat × FindCache) with
      | (some v, c9) => (some v, cachePut (nid, word, loop) v c9)
      | r => r

/-- The run demonstrating a stale cache: the heap of a fresh `RadixTrie()`. -/
def c8ns0 : List NodeData := [⟨[], false, []⟩]

/-- ... after `add("a")`. -/
def c8ns1 : List NodeData := (addA 50 c8ns0 0 ['a'] false).getD []

/-- The first query `is_word("ab")` (count 0) together with the cache it
leaves behind. -/
def c8q1 : Option Nat × FindCache := findA 50 c8ns1 0 [] 0 ['a', 'b'] false

/-- ... after the subsequent `add("ab")`; the cache is untouched by `add`. -/
def c8ns2 : List NodeData := (addA 50 c8ns1 0 ['a', 'b'] false).getD []

/-!  Concrete trie states used by individual claims. -/

/-- The trie after `add("a"); add("aa"); add("aaa")`. -/
def t123 : RadixNode := RadixTrie.add_many 50 emptyTrie [['a'], ['a', 'a'], ['a', 'a', 'a']]

/-- The trie after a single `add("a")`. -/
def tA : RadixNode := RadixTrie.add_many 50 emptyTrie [['a']]

/-- The trie after `add("a"); add("a")` (the same word twice). -/
def tAA : RadixNode := RadixTrie.add_many 50 emptyTrie [['a'], ['a']]

/-- The trie after adding the words `a`, `ab`, `b`. -/
def tSent : RadixNode := RadixTrie.add_many 50 emptyTrie [['a'], ['a', 'b'], ['b']]

/-- The trie after adding the words `a` and `ab` (and not `b`). -/
def tAab : RadixNode := RadixTrie.add_many 50 emptyTrie [['a'], ['a', 'b']]

/-- The trie after adding `ab` then `aa`. -/
def tOrd1 : RadixNode := RadixTrie.add_many 50 emptyTrie [['a', 'b'], ['a', 'a']]

/-- The trie after adding `aa` then `ab` (the other order). -/
def tOrd2 : RadixNode := RadixTrie.add_many 50 emptyTrie [['a', 'a'], ['a', 'b']]

/-- The trie after `add("")`: the root is marked as a leaf. -/
def tEps : RadixNode := RadixTrie.add_many 50 emptyTrie [[]]

/-- The trie after adding the one-character words `a` and `b`. -/
def tAB : RadixNode := RadixTrie.add_many 50 emptyTrie [['a'], ['b']]

/-!  Theorems.  First the bookkeeping lemmas about the embedded
operations, then one theorem (plus witness or counterexample) per claim. -/

@[simp] theorem RadixNode.pfx_mk (p : List Char) (l : Bool) (ch : List (Char × RadixNode)) :
    (RadixNode.mk p l ch).pfx = p := rfl

@[simp] theorem RadixNode.is_leaf_mk (p : List Char) (l : Bool) (ch : List (Char × RadixNode)) :
    (RadixNode.mk p l ch).is_leaf = l := rfl

@[simp] theorem RadixNode.children_mk (p : List Char) (l : Bool) (ch : List (Char × RadixNode)) :
    (RadixNode.mk p l ch).children = ch := rfl

/-- One unfolding step of `RadixNode.find`, with the two candidate
contributions expressed through `contrib`. -/
theorem find_succ (fuel : Nat) (root n : RadixNode) (word : List Char) (loop : Bool) :
    RadixNode.find (fuel+1) root n word loop =
      match word with
      | [] => FindRes.err
      | c :: _ =>
        match getChild c n.children with
        | none =>
          if n.is_leaf then RadixNode.find fuel root root word loop else FindRes.ok 0
        | some child =>
          if n.is_leaf && loop then
            match contrib fuel root child word loop with
            | FindRes.ok k1 =>
              match getChild c root.children with
              | none => FindRes.err
              | some child2 =>
                match contrib fuel root child2 word loop with
                | FindRes.ok k2 => FindRes.ok (k1 + k2)
                | e => e
            | e => e
          else contrib fuel root child word loop := rfl

/-- One unfolding step of `RadixNode.add`. -/
theorem add_succ (fuel : Nat) (n : RadixNode) (word : List Char) (flag : Bool) :
    RadixNode.add (fuel+1) n word flag =
      if n.pfx = word ∧ n.is_leaf = false ∧ flag = false then
        AddRes.ok (RadixNode.mk n.pfx true n.children)
      else
        match word with
        | [] => AddRes.err
        | c :: _ =>
          match getChild c n.children with
          | none =>
            AddRes.ok (RadixNode.mk n.pfx n.is_leaf
              (setChild c (RadixNode.mk word true []) n.children))
          | some child =>
            match matchPre child.pfx word with
            | (m, [], []) =>
              match RadixNode.add fuel child m false with
              | AddRes.ok child2 =>
                AddRes.ok (RadixNode.mk n.pfx n.is_leaf (setChild c child2 n.children))
              | e => e
            | (m, [], d :: rw2) =>
              match m with
              | [] => AddRes.err
              | mc :: _ =>
                match RadixNode.add fuel child (d :: rw2) (decide (d = mc)) with
                | AddRes.ok child2 =>
                  AddRes.ok (RadixNode.mk n.pfx n.is_leaf (setChild c child2 n.children))
                | e => e
            | (m, r0 :: rp2, rw) =>
              match m with
              | [] => AddRes.err
              | mc :: _ =>
                match rw with
                | [] =>
                  AddRes.ok (RadixNode.mk n.pfx n.is_leaf
                    (setChild mc
                      (RadixNode.mk m true
                        [(r0, RadixNode.mk (r0 :: rp2) child.is_leaf child.children)])
                      n.children))
                | _ =>
                  match RadixNode.add fuel
                      (RadixNode.mk m false
                        [(r0, RadixNode.mk (r0 :: rp2) child.is_leaf child.children)])
                      rw false with
                  | AddRes.ok newChild =>
                    AddRes.ok (RadixNode.mk n.pfx n.is_leaf (setChild mc newChild n.children))
                  | e => e := rfl

theorem getChild_mem {c : Char} {v : RadixNode} :
    ∀ {ch : List (Char × RadixNode)}, getChild c ch = some v → (c, v) ∈ ch := by
  intro ch
  induction ch with
  | nil => intro h; simp [getChild] at h
  | cons p rest ih =>
    obtain ⟨k, w⟩ := p
    intro h
    simp only [getChild] at h
    by_cases hk : k = c
    · rw [if_pos hk] at h
      cases h
      subst hk
      exact List.mem_cons_self _ _
    · rw [if_neg hk] at h
      exact List.mem_cons_of_mem _ (ih h)

theorem getChild_eq_none {c : Char} :
    ∀ {ch : List (Char × RadixNode)}, c ∉ ch.map Prod.fst → getChild c ch = none := by
  intro ch
  induction ch with
  | nil => intro _; rfl
  | cons p rest ih =>
    obtain ⟨k, w⟩ := p
    intro h
    simp only [List.map_cons, List.mem_cons] at h
    push_neg at h
    simp only [getChild]
    rw [if_neg (fun hk => h.1 hk.symm)]
    exact ih h.2

theorem setChild_mem {c : Char} {v : RadixNode} {x : Char} {u : RadixNode} :
    ∀ {ch : List (Char × RadixNode)},
      (x, u) ∈ setChild c v ch → (x = c ∧ u = v) ∨ (x, u) ∈ ch := by
  intro ch
  induction ch with
  | nil =>
    intro h
    simp only [setChild, List.mem_singleton] at h
    cases h
    exact Or.inl ⟨rfl, rfl⟩
  | cons p rest ih =>
    obtain ⟨k, w⟩ := p
    intro h
    simp only [setChild] at h
    by_cases hk : k = c
    · rw [if_pos hk] at h
      rcases List.mem_cons.mp h with h1 | h1
      · cases h1; exact Or.inl ⟨rfl, rfl⟩
      · exact Or.inr (List.mem_cons_of_mem _ h1)
    · rw [if_neg hk] at h
      rcases List.mem_cons.mp h with h1 | h1
      · cases h1; exact Or.inr (List.mem_cons_self _ _)
      · rcases ih h1 with h2 | h2
        · exact Or.inl h2
        · exact Or.inr (List.mem_cons_of_mem _ h2)

theorem setChild_keys_sub {c : Char} {v : RadixNode} {x : Char} :
    ∀ {ch : List (Char × RadixNode)},
      x ∈ (setChild c v ch).map Prod.fst → x = c ∨ x ∈ ch.map Prod.fst := by
  intro ch
  induction ch with
  | nil =>
    intro h
    simp only [setChild, List.map_singleton, List.mem_singleton] at h
    exact Or.inl h
  | cons p rest ih =>
    obtain ⟨k, w⟩ := p
    intro h
    simp only [setChild] at h
    by_cases hk : k = c
    · rw [if_pos hk] at h
      simp only [List.map_cons, List.mem_cons] at h
      rcases h with h1 | h1
      · exact Or.inl h1
      · exact Or.inr (by simp only [List.map_cons, List.mem_cons]; exact Or.inr h1)
    · rw [if_neg hk] at h
      simp only [List.map_cons, List.mem_cons] at h
      rcases h with h1 | h1
      · exact Or.inr (by simp only [List.map_cons, List.mem_cons]; exact Or.inl h1)
      · rcases ih h1 with h2 | h2
        · exact Or.inl h2
        · exact Or.inr (by simp only [List.map_cons, List.mem_cons]; exact Or.inr h2)

theorem setChild_nodup {c : Char} {v : RadixNode} :
    ∀ {ch : List (Char × RadixNode)},
      (ch.map Prod.fst).Nodup → ((setChild c v ch).map Prod.fst).Nodup := by
  intro ch
  induction ch with
  | nil => intro _; simp [setChild]
  | cons p rest ih =>
    obtain ⟨k, w⟩ := p
    intro h
    simp only [List.map_cons, List.nodup_cons] at h
    simp only [setChild]
    by_cases hk : k = c
    · rw [if_pos hk]
      simp only [List.map_cons, List.nodup_cons]
      subst hk
      exact h
    · rw [if_neg hk]
      simp only [List.map_cons, List.nodup_cons]
      refine ⟨fun hmem => ?_, ih h.2⟩
      rcases setChild_keys_sub hmem with h1 | h1
      · exact hk h1
      · exact h.1 h1

theorem setChild_not_mem {c : Char} {v : RadixNode} :
    ∀ {ch : List (Char × RadixNode)},
      c ∉ ch.map Prod.fst → setChild c v ch = ch ++ [(c, v)] := by
  intro ch
  induction ch with
  | nil => intro _; rfl
  | cons p rest ih =>
    obtain ⟨k, w⟩ := p
    intro h
    simp only [List.map_cons, List.mem_cons] at h
    push_neg at h
    simp only [setChild]
    rw [if_neg (fun hk => h.1 hk.symm)]
    rw [ih h.2]
    rfl

theorem matchPre_append :
    ∀ (p w : List Char), (matchPre p w).1 ++ (matchPre p w).2.1 = p ∧
      (matchPre p w).1 ++ (matchPre p w).2.2 = w := by
  intro p
  induction p with
  | nil => intro w; simp [matchPre]
  | cons a p ih =>
    intro w
    cases w with
    | nil => simp [matchPre]
    | cons b w =>
      simp only [matchPre]
      by_cases hab : a = b
      · subst hab
        rw [if_pos rfl]
        refine ⟨?_, ?_⟩
        · show a :: ((matchPre p w).1 ++ (matchPre p w).2.1) = a :: p
          rw [(ih w).1]
        · show a :: ((matchPre p w).1 ++ (matchPre p w).2.2) = a :: w
          rw [(ih w).2]
      · rw [if_neg hab]
        simp

theorem matchPre_len :
    ∀ (p w : List Char), (matchPre p w).2.2.length ≤ w.length := by
  intro p
  induction p with
  | nil => intro w; simp [matchPre]
  | cons a p ih =>
    intro w
    cases w with
    | nil => simp [matchPre]
    | cons b w =>
      simp only [matchPre]
      by_cases hab : a = b
      · rw [if_pos hab]
        exact Nat.le_trans (ih w) (Nat.le_succ _)
      · rw [if_neg hab]

theorem matchPre_cons (c : Char) (p w : List Char) :
    matchPre (c :: p) (c :: w) =
      ((c :: (matchPre p w).1), (matchPre p w).2.1, (matchPre p w).2.2) := by
  simp [matchPre]

theorem trieInv_iff {p : List Char} {l : Bool} {ch : List (Char × RadixNode)} :
    TrieInv (RadixNode.mk p l ch) ↔ ChildrenInv ch := by
  constructor
  · intro h
    cases h with
    | mk p l ch hhead hinv hnd => exact ⟨fun c t hm => ⟨hhead c t hm, hinv c t hm⟩, hnd⟩
  · intro h
    exact TrieInv.mk p l ch (fun c t hm => (h.1 c t hm).1) (fun c t hm => (h.1 c t hm).2) h.2

theorem trieInv_child {n : RadixNode} {c : Char} {child : RadixNode}
    (h : TrieInv n) (hg : getChild c n.children = some child) :
    child.pfx.head? = some c ∧ TrieInv child := by
  cases h with
  | mk p l ch hhead hinv hnd =>
    exact ⟨hhead c child (getChild_mem hg), hinv c child (getChild_mem hg)⟩

theorem childrenInv_setChild {ch : List (Char × RadixNode)} {c : Char} {v : RadixNode}
    (h : ChildrenInv ch) (hv : v.pfx.head? = some c) (hvInv : TrieInv v) :
    ChildrenInv (setChild c v ch) := by
  refine ⟨fun x u hm => ?_, setChild_nodup h.2⟩
  rcases setChild_mem hm with ⟨hx, hu⟩ | hm2
  · subst hx; subst hu; exact ⟨hv, hvInv⟩
  · exact h.1 x u hm2

/-- `add` preserves the structural invariant, never changes the node's own
prefix, and changes the node's own leaf flag only when `prefix == word`. -/
theorem add_props :
    ∀ (fuel : Nat) (n : RadixNode) (word : List Char) (flag : Bool) (t2 : RadixNode),
      TrieInv n → RadixNode.add fuel n word flag = AddRes.ok t2 →
      TrieInv t2 ∧ t2.pfx = n.pfx ∧ (n.pfx = word ∨ t2.is_leaf = n.is_leaf) := by
  intro fuel
  induction fuel with
  | zero =>
    intro n word flag t2 _ h
    exact AddRes.noConfusion h
  | succ fuel ih =>
    intro n word flag t2 hInv h
    rw [add_succ] at h
    by_cases h1 : (n.pfx = word ∧ n.is_leaf = false ∧ flag = false)
    · rw [if_pos h1] at h
      cases h
      obtain ⟨p, l, ch⟩ := n
      exact ⟨trieInv_iff.mpr (trieInv_iff.mp hInv), rfl, Or.inl h1.1⟩
    · rw [if_neg h1] at h
      cases word with
      | nil => exact AddRes.noConfusion h
      | cons c wtail =>
        cases hg : getChild c n.children with
        | none =>
          simp only [hg] at h
          cases h
          obtain ⟨p, l, ch⟩ := n
          refine ⟨trieInv_iff.mpr (childrenInv_setChild (trieInv_iff.mp hInv) ?_ ?_), rfl,
            Or.inr rfl⟩
          · simp
          · exact trieInv_iff.mpr ⟨fun c t hm => absurd hm (List.not_mem_nil _), List.nodup_nil⟩
        | some child =>
          obtain ⟨hhead, hchInv⟩ := trieInv_child hInv hg
          rcases h3 : matchPre child.pfx (c :: wtail) with ⟨m, rp, rw⟩
          cases rp with
          | nil =>
            cases rw with
            | nil =>
              simp only [hg, h3] at h
              cases hrec : RadixNode.add fuel child m false with
              | ok child2 =>
                simp only [hrec] at h
                cases h
                obtain ⟨hInv2, hpfx2, _⟩ := ih child m false child2 hchInv hrec
                obtain ⟨p, l, ch⟩ := n
                refine ⟨trieInv_iff.mpr (childrenInv_setChild (trieInv_iff.mp hInv) ?_ hInv2),
                  rfl, Or.inr rfl⟩
                rw [hpfx2]
                exact hhead
              | err => simp only [hrec] at h; exact AddRes.noConfusion h
              | spin => simp only [hrec] at h; exact AddRes.noConfusion h
            | cons d rw2 =>
              cases m with
              | nil => simp only [hg, h3] at h; exact AddRes.noConfusion h
              | cons mc m2 =>
                simp only [hg, h3] at h
                cases hrec : RadixNode.add fuel child (d :: rw2) (decide (d = mc)) with
                | ok child2 =>
                  simp only [hrec] at h
                  cases h
                  obtain ⟨hInv2, hpfx2, _⟩ :=
                    ih child (d :: rw2) (decide (d = mc)) child2 hchInv hrec
                  obtain ⟨p, l, ch⟩ := n
                  refine ⟨trieInv_iff.mpr (childrenInv_setChild (trieInv_iff.mp hInv) ?_ hInv2),
                    rfl, Or.inr rfl⟩
                  rw [hpfx2]
                  exact hhead
                | err => simp only [hrec] at h; exact AddRes.noConfusion h
                | spin => simp only [hrec] at h; exact AddRes.noConfusion h
          | cons r0 rp2 =>
            cases m with
            | nil => simp only [hg, h3] at h; exact AddRes.noConfusion h
            | cons mc m2 =>
              have hshrunk : TrieInv (RadixNode.mk (r0 :: rp2) child.is_leaf child.children) := by
                obtain ⟨pc, lc, chc⟩ := child
                exact trieInv_iff.mpr (trieInv_iff.mp hchInv)
              have hnewInv : ∀ lf : Bool, TrieInv (RadixNode.mk (mc :: m2) lf
                  [(r0, RadixNode.mk (r0 :: rp2) child.is_leaf child.children)]) := by
                intro lf
                refine trieInv_iff.mpr ⟨fun x u hm => ?_, by simp⟩
                rcases List.mem_singleton.mp hm with h5
                cases h5
                exact ⟨by simp, hshrunk⟩
              cases rw with
              | nil =>
                simp only [hg, h3] at h
                cases h
                obtain ⟨p, l, ch⟩ := n
                refine ⟨trieInv_iff.mpr (childrenInv_setChild (trieInv_iff.mp hInv) ?_
                  (hnewInv true)), rfl, Or.inr rfl⟩
                simp
              | cons e rw2 =>
                simp only [hg, h3] at h
                cases hrec : RadixNode.add fuel
                    (RadixNode.mk (mc :: m2) false
                      [(r0, RadixNode.mk (r0 :: rp2) child.is_leaf child.children)])
                    (e :: rw2) false with
                | ok newChild =>
                  simp only [hrec] at h
                  cases h
                  obtain ⟨hInv2, hpfx2, _⟩ := ih _ (e :: rw2) false newChild (hnewInv false) hrec
                  obtain ⟨p, l, ch⟩ := n
                  refine ⟨trieInv_iff.mpr (childrenInv_setChild (trieInv_iff.mp hInv) ?_ hInv2),
                    rfl, Or.inr rfl⟩
                  rw [hpfx2]
                  simp
                | err => simp only [hrec] at h; exact AddRes.noConfusion h
                | spin => simp only [hrec] at h; exact AddRes.noConfusion h

theorem trieInv_empty : TrieInv emptyTrie :=
  trieInv_iff.mpr ⟨fun _ _ hm => absurd hm (List.not_mem_nil _), List.nodup_nil⟩

theorem trieAdd_props (fuel : Nat) (t : RadixNode) (w : List Char) (hInv : TrieInv t) :
    TrieInv (RadixTrie.add fuel t w) ∧ (RadixTrie.add fuel t w).pfx = t.pfx ∧
      (t.pfx = w ∨ (RadixTrie.add fuel t w).is_leaf = t.is_leaf) := by
  unfold RadixTrie.add
  cases hres : RadixNode.add fuel t w false with
  | ok t2 => exact add_props fuel t w false t2 hInv hres
  | err => exact ⟨hInv, rfl, Or.inr rfl⟩
  | spin => exact ⟨hInv, rfl, Or.inr rfl⟩

theorem add_many_props :
    ∀ (ws : List (List Char)) (fuel : Nat) (t : RadixNode), TrieInv t →
      TrieInv (RadixTrie.add_many fuel t ws) ∧
      (RadixTrie.add_many fuel t ws).pfx = t.pfx ∧
      ((∀ w ∈ ws, w ≠ t.pfx) → (RadixTrie.add_many fuel t ws).is_leaf = t.is_leaf) := by
  intro ws
  induction ws with
  | nil =>
    intro fuel t hInv
    exact ⟨hInv, rfl, fun _ => rfl⟩
  | cons w ws ih =>
    intro fuel t hInv
    obtain ⟨hInv1, hpfx1, hleaf1⟩ := trieAdd_props fuel t w hInv
    obtain ⟨hInv2, hpfx2, hleaf2⟩ := ih fuel (RadixTrie.add fuel t w) hInv1
    refine ⟨hInv2, hpfx2.trans hpfx1, fun hne => ?_⟩
    have hw : w ≠ t.pfx := hne w (List.mem_cons_self _ _)
    have hl1 : (RadixTrie.add fuel t w).is_leaf = t.is_leaf := by
      rcases hleaf1 with h | h
      · exact absurd h.symm hw
      · exact h
    have hcons : RadixTrie.add_many fuel t (w :: ws) =
        RadixTrie.add_many fuel (RadixTrie.add fuel t w) ws := rfl
    rw [hcons, hleaf2 (fun w2 hw2 => by rw [hpfx1]; exact hne w2 (List.mem_cons_of_mem _ hw2))]
    exact hl1

theorem reachable_props {t : RadixNode} (h : Reachable t) : TrieInv t ∧ t.pfx = [] := by
  obtain ⟨fuel, ws, hws⟩ := h
  obtain ⟨hInv, hpfx, _⟩ := add_many_props ws fuel emptyTrie trieInv_empty
  rw [hws] at hInv hpfx
  exact ⟨hInv, hpfx⟩

theorem reachableNE_props {t : RadixNode} (h : ReachableNE t) :
    TrieInv t ∧ t.pfx = [] ∧ t.is_leaf = false := by
  obtain ⟨fuel, ws, hne, hws⟩ := h
  obtain ⟨hInv, hpfx, hleaf⟩ := add_many_props ws fuel emptyTrie trieInv_empty
  rw [hws] at hInv hpfx hleaf
  exact ⟨hInv, hpfx, hleaf (fun w hw => hne w hw)⟩

theorem head?_eq_cons {l : List Char} {c : Char} (h : l.head? = some c) :
    ∃ tl, l = c :: tl := by
  cases l with
  | nil => simp at h
  | cons a tl =>
    simp only [List.head?_cons, Option.some.injEq] at h
    exact ⟨tl, by rw [h]⟩

theorem matchPre_rw_le {child : RadixNode} {c : Char} {w : List Char}
    (hhead : child.pfx.head? = some c) :
    (matchPre child.pfx (c :: w)).2.2.length ≤ w.length := by
  obtain ⟨tl, hp⟩ := head?_eq_cons hhead
  rw [hp, matchPre_cons]
  exact matchPre_len tl w

theorem contrib_nospin
    (f : Nat) (root child : RadixNode) (c : Char) (w2 : List Char) (loop : Bool)
    (hhead : child.pfx.head? = some c) (hchInv : TrieInv child)
    (hrec : ∀ (w3 : List Char) (node : RadixNode), TrieInv node →
      2 * w3.length + 3 ≤ f → RadixNode.find f root node w3 loop ≠ FindRes.spin)
    (hfu : 2 * (c :: w2).length + 1 ≤ f) :
    contrib f root child (c :: w2) loop ≠ FindRes.spin := by
  unfold contrib
  rcases h3 : matchPre child.pfx (c :: w2) with ⟨m, rp, rw⟩
  have hlen : rw.length ≤ w2.length := by
    have h4 := matchPre_rw_le hhead (w := w2)
    rw [h3] at h4
    exact h4
  cases rp with
  | nil =>
    cases rw with
    | nil =>
      simp only [h3]
      exact fun hh => FindRes.noConfusion hh
    | cons d rw2 =>
      simp only [h3]
      refine hrec (d :: rw2) child hchInv ?_
      simp only [List.length_cons] at hlen hfu ⊢
      omega
  | cons r0 rp2 =>
    simp only [h3]
    exact fun hh => FindRes.noConfusion hh

/-- With the structural invariant and a non-leaf root, `find` cannot run
out of fuel once the fuel exceeds twice the word length (plus a small
constant): the only way for the recursion to be unbounded is the root
delegating to itself, which requires the root to be a leaf. -/
theorem find_nospin (root : RadixNode) (hInv : TrieInv root) (hlf : root.is_leaf = false) :
    ∀ fuel,
      (∀ (w : List Char) (loop : Bool), 2 * w.length + 2 ≤ fuel →
        RadixNode.find fuel root root w loop ≠ FindRes.spin) ∧
      (∀ (w : List Char) (loop : Bool) (node : RadixNode), TrieInv node →
        2 * w.length + 3 ≤ fuel →
        RadixNode.find fuel root node w loop ≠ FindRes.spin) := by
  intro fuel
  induction fuel with
  | zero =>
    constructor
    · intro w loop h; omega
    · intro w loop node _ h; omega
  | succ f ih =>
    obtain ⟨ihR, ihN⟩ := ih
    constructor
    · intro w loop hfu
      rw [find_succ]
      cases w with
      | nil => exact fun hh => FindRes.noConfusion hh
      | cons c w2 =>
        cases hg : getChild c root.children with
        | none =>
          simp only [hg, hlf, Bool.false_eq_true, if_false]
          exact fun hh => FindRes.noConfusion hh
        | some child =>
          obtain ⟨hhead, hchInv⟩ := trieInv_child hInv hg
          simp only [hg, hlf, Bool.false_and, Bool.false_eq_true, if_false]
          refine contrib_nospin f root child c w2 loop hhead hchInv
            (fun w3 node hn hb => ihN w3 loop node hn hb) ?_
          simp only [List.length_cons] at hfu ⊢
          omega
    · intro w loop node hnInv hfu
      rw [find_succ]
      cases w with
      | nil => exact fun hh => FindRes.noConfusion hh
      | cons c w2 =>
        cases hg : getChild c node.children with
        | none =>
          cases hleaf : node.is_leaf with
          | true =>
            simp only [hg, hleaf, if_true]
            refine ihR (c :: w2) loop ?_
            omega
          | false =>
            simp only [hg, hleaf, Bool.false_eq_true, if_false]
            exact fun hh => FindRes.noConfusion hh
        | some child =>
          obtain ⟨hhead, hchInv⟩ := trieInv_child hnInv hg
          have hcon : contrib f root child (c :: w2) loop ≠ FindRes.spin := by
            refine contrib_nospin f root child c w2 loop hhead hchInv
              (fun w3 node2 hn hb => ihN w3 loop node2 hn hb) ?_
            simp only [List.length_cons] at hfu ⊢
            omega
          cases hbl : (node.is_leaf && loop) with
          | false =>
            simp only [hg, hbl, Bool.false_eq_true, if_false]
            exact hcon
          | true =>
            simp only [hg, hbl, if_true]
            cases hr1 : contrib f root child (c :: w2) loop with
            | ok k1 =>
              simp only [hr1]
              cases hg2 : getChild c root.children with
              | none =>
                simp only [hg2]
                exact fun hh => FindRes.noConfusion hh
              | some child2 =>
                obtain ⟨hhead2, hch2⟩ := trieInv_child hInv hg2
                have hcon2 : contrib f root child2 (c :: w2) loop ≠ FindRes.spin := by
                  refine contrib_nospin f root child2 c w2 loop hhead2 hch2
                    (fun w3 node2 hn hb => ihN w3 loop node2 hn hb) ?_
                  simp only [List.length_cons] at hfu ⊢
                  omega
                simp only [hg2]
                cases hr2 : contrib f root child2 (c :: w2) loop with
                | ok k2 => simp only [hr2]; exact fun hh => FindRes.noConfusion hh
                | err => simp only [hr2]; exact fun hh => FindRes.noConfusion hh
                | spin => exact absurd hr2 hcon2
            | err => simp only [hr1]; exact fun hh => FindRes.noConfusion hh
            | spin => exact absurd hr1 hcon

theorem contrib_ok
    (f : Nat) (root child : RadixNode) (c : Char) (w2 : List Char)
    (hhead : child.pfx.head? = some c) (hchInv : TrieInv child)
    (hrec : ∀ (w3 : List Char) (node : RadixNode), TrieInv node → w3 ≠ [] →
      2 * w3.length + 3 ≤ f → ∃ k, RadixNode.find f root node w3 false = FindRes.ok k)
    (hfu : 2 * (c :: w2).length + 1 ≤ f) :
    ∃ k, contrib f root child (c :: w2) false = FindRes.ok k := by
  unfold contrib
  rcases h3 : matchPre child.pfx (c :: w2) with ⟨m, rp, rw⟩
  have hlen : rw.length ≤ w2.length := by
    have h4 := matchPre_rw_le hhead (w := w2)
    rw [h3] at h4
    exact h4
  cases rp with
  | nil =>
    cases rw with
    | nil =>
      simp only [h3]
      exact ⟨_, rfl⟩
    | cons d rw2 =>
      simp only [h3]
      refine hrec (d :: rw2) child hchInv (by simp) ?_
      simp only [List.length_cons] at hlen hfu ⊢
      omega
  | cons r0 rp2 =>
    simp only [h3]
    exact ⟨0, rfl⟩

/-- With the structural invariant, a non-leaf root, `loop = false` and a
non-empty word, `find` returns a count normally: the second (wrap)
candidate is never consulted, every recursive call keeps the word
non-empty, and the recursion is fuel-bounded as in `find_nospin`. -/
theorem find_ok (root : RadixNode) (hInv : TrieInv root) (hlf : root.is_leaf = false) :
    ∀ fuel,
      (∀ (w : List Char), w ≠ [] → 2 * w.length + 2 ≤ fuel →
        ∃ k, RadixNode.find fuel root root w false = FindRes.ok k) ∧
      (∀ (w : List Char) (node : RadixNode), TrieInv node → w ≠ [] →
        2 * w.length + 3 ≤ fuel →
        ∃ k, RadixNode.find fuel root node w false = FindRes.ok k) := by
  intro fuel
  induction fuel with
  | zero =>
    constructor
    · intro w _ h; omega
    · intro w node _ _ h; omega
  | succ f ih =>
    obtain ⟨ihR, ihN⟩ := ih
    constructor
    · intro w hw hfu
      rw [find_succ]
      cases w with
      | nil => exact absurd rfl hw
      | cons c w2 =>
        cases hg : getChild c root.children with
        | none =>
          simp only [hg, hlf, Bool.false_eq_true, if_false]
          exact ⟨0, rfl⟩
        | some child =>
          obtain ⟨hhead, hchInv⟩ := trieInv_child hInv hg
          simp only [hg, hlf, Bool.false_and, Bool.false_eq_true, if_false]
          refine contrib_ok f root child c w2 hhead hchInv
            (fun w3 node hn hw3 hb => ihN w3 node hn hw3 hb) ?_
          simp only [List.length_cons] at hfu ⊢
          omega
    · intro w node hnInv hw hfu
      rw [find_succ]
      cases w with
      | nil => exact absurd rfl hw
      | cons c w2 =>
        cases hg : getChild c node.children with
        | none =>
          cases hleaf : node.is_leaf with
          | true =>
            simp only [hg, hleaf, if_true]
            refine ihR (c :: w2) (by simp) ?_
            omega
          | false =>
            simp only [hg, hleaf, Bool.false_eq_true, if_false]
            exact ⟨0, rfl⟩
        | some child =>
          obtain ⟨hhead, hchInv⟩ := trieInv_child hnInv hg
          simp only [hg, Bool.and_false, Bool.false_eq_true, if_false]
          refine contrib_ok f root child c w2 hhead hchInv
            (fun w3 node2 hn hw3 hb => ihN w3 node2 hn hw3 hb) ?_
          simp only [List.length_cons] at hfu ⊢
          omega

theorem sizeOf_child_lt {p : List Char} {l : Bool} {ch : List (Char × RadixNode)}
    {c : Char} {child : RadixNode} (hm : (c, child) ∈ ch) :
    sizeOf child < sizeOf (RadixNode.mk p l ch) := by
  have h1 := List.sizeOf_lt_of_mem hm
  have h2 : sizeOf (c, child) = 1 + sizeOf c + sizeOf child := rfl
  have h3 : sizeOf (RadixNode.mk p l ch) = 1 + sizeOf p + sizeOf l + sizeOf ch :=
    RadixNode.mk.sizeOf_spec p l ch
  omega

theorem trieInv_case4 {child : RadixNode} {mc r0 : Char} {m2 rp2 : List Char} {lf : Bool}
    (hchInv : TrieInv child) :
    TrieInv (RadixNode.mk (mc :: m2) lf
      [(r0, RadixNode.mk (r0 :: rp2) child.is_leaf child.children)]) := by
  have hshrunk : TrieInv (RadixNode.mk (r0 :: rp2) child.is_leaf child.children) := by
    obtain ⟨pc, lc, chc⟩ := child
    exact trieInv_iff.mpr (trieInv_iff.mp hchInv)
  refine trieInv_iff.mpr ⟨fun x u hm => ?_, by simp⟩
  rcases List.mem_singleton.mp hm with h5
  cases h5
  exact ⟨by simp, hshrunk⟩

/-- `add` cannot run out of fuel on a trie satisfying the invariant: each
recursive call either strictly shortens the word or strictly descends in
the tree (double strong induction on word length and node size). -/
theorem add_nospin_aux :
    ∀ (k : Nat), ∀ (s : Nat), ∀ (w : List Char) (t : RadixNode) (flag : Bool),
      TrieInv t → w.length ≤ k → sizeOf t ≤ s →
      ∃ fuel, RadixNode.add fuel t w flag ≠ AddRes.spin := by
  intro k
  induction k using Nat.strong_induction_on with
  | _ k ihk =>
  intro s
  induction s using Nat.strong_induction_on with
  | _ s ihs =>
  intro w t flag hInv hwk hts
  obtain ⟨p, l, ch⟩ := t
  by_cases h1 : ((RadixNode.mk p l ch).pfx = w ∧ (RadixNode.mk p l ch).is_leaf = false ∧
      flag = false)
  · exact ⟨1, by rw [add_succ, if_pos h1]; exact fun hh => AddRes.noConfusion hh⟩
  · cases w with
    | nil =>
      exact ⟨1, by rw [add_succ, if_neg h1]; exact fun hh => AddRes.noConfusion hh⟩
    | cons c w2 =>
      cases hg : getChild c (RadixNode.mk p l ch).children with
      | none =>
        exact ⟨1, by
          rw [add_succ, if_neg h1]
          simp only [hg]
          exact fun hh => AddRes.noConfusion hh⟩
      | some child =>
        obtain ⟨hhead, hchInv⟩ := trieInv_child hInv hg
        have hsz : sizeOf child < sizeOf (RadixNode.mk p l ch) :=
          sizeOf_child_lt (getChild_mem hg)
        rcases h3 : matchPre child.pfx (c :: w2) with ⟨m, rp, rw⟩
        have happ := matchPre_append child.pfx (c :: w2)
        rw [h3] at happ
        cases rp with
        | nil =>
          cases rw with
          | nil =>
            have hm : m = c :: w2 := by simpa using happ.2
            obtain ⟨F, hF⟩ := ihs (sizeOf child) (lt_of_lt_of_le hsz hts) m child false
              hchInv (by rw [hm]; exact hwk) (le_refl _)
            refine ⟨F + 1, ?_⟩
            rw [add_succ, if_neg h1]
            simp only [hg, h3]
            cases hres : RadixNode.add F child m false with
            | ok c2 => simp only [hres]; exact fun hh => AddRes.noConfusion hh
            | err => simp only [hres]; exact fun hh => AddRes.noConfusion hh
            | spin => exact absurd hres hF
          | cons d rw2 =>
            cases m with
            | nil =>
              exact ⟨1, by
                rw [add_succ, if_neg h1]
                simp only [hg, h3]
                exact fun hh => AddRes.noConfusion hh⟩
            | cons mc m2 =>
              have hlen : (d :: rw2).length < k := by
                have hl := congrArg List.length happ.2
                simp only [List.length_append, List.length_cons] at hl
                simp only [List.length_cons] at hwk
                simp only [List.length_cons]
                omega
              obtain ⟨F, hF⟩ := ihk (d :: rw2).length hlen (sizeOf child) (d :: rw2) child
                (decide (d = mc)) hchInv (le_refl _) (le_refl _)
              refine ⟨F + 1, ?_⟩
              rw [add_succ, if_neg h1]
              simp only [hg, h3]
              cases hres : RadixNode.add F child (d :: rw2) (decide (d = mc)) with
              | ok c2 => simp only [hres]; exact fun hh => AddRes.noConfusion hh
              | err => simp only [hres]; exact fun hh => AddRes.noConfusion hh
              | spin => exact absurd hres hF
        | cons r0 rp2 =>
          cases m with
          | nil =>
            exact ⟨1, by
              rw [add_succ, if_neg h1]
              simp only [hg, h3]
              exact fun hh => AddRes.noConfusion hh⟩
          | cons mc m2 =>
            cases rw with
            | nil =>
              exact ⟨1, by
                rw [add_succ, if_neg h1]
                simp only [hg, h3]
                exact fun hh => AddRes.noConfusion hh⟩
            | cons e rw2 =>
              have hlen : (e :: rw2).length < k := by
                have hl := congrArg List.length happ.2
                simp only [List.length_append, List.length_cons] at hl
                simp only [List.length_cons] at hwk
                simp only [List.length_cons]
                omega
              obtain ⟨F, hF⟩ := ihk (e :: rw2).length hlen
                (sizeOf (RadixNode.mk (mc :: m2) false
                  [(r0, RadixNode.mk (r0 :: rp2) child.is_leaf child.children)]))
                (e :: rw2)
                (RadixNode.mk (mc :: m2) false
                  [(r0, RadixNode.mk (r0 :: rp2) child.is_leaf child.children)])
                false (trieInv_case4 hchInv) (le_refl _) (le_refl _)
              refine ⟨F + 1, ?_⟩
              rw [add_succ, if_neg h1]
              simp only [hg, h3]
              cases hres : RadixNode.add F
                  (RadixNode.mk (mc :: m2) false
                    [(r0, RadixNode.mk (r0 :: rp2) child.is_leaf child.children)])
                  (e :: rw2) false with
              | ok c2 => simp only [hres]; exact fun hh => AddRes.noConfusion hh
              | err => simp only [hres]; exact fun hh => AddRes.noConfusion hh
              | spin => exact absurd hres hF

/-- `add` terminates on every invariant-satisfying trie. -/
theorem add_nospin {t : RadixNode} (hInv : TrieInv t) (w : List Char) (flag : Bool) :
    ∃ fuel, RadixNode.add fuel t w flag ≠ AddRes.spin :=
  add_nospin_aux w.length (sizeOf t) w t flag hInv (le_refl _) (le_refl _)

theorem getChild_none_iff {c : Char} :
    ∀ {ch : List (Char × RadixNode)}, getChild c ch = none ↔ c ∉ ch.map Prod.fst := by
  intro ch
  induction ch with
  | nil => simp [getChild]
  | cons p rest ih =>
    obtain ⟨k, w⟩ := p
    simp only [getChild, List.map_cons, List.mem_cons]
    by_cases hk : k = c
    · rw [if_pos hk]
      simp [hk]
    · rw [if_neg hk]
      rw [ih]
      constructor
      · intro h hmem
        rcases hmem with h2 | h2
        · exact hk h2.symm
        · exact h h2
      · intro h h2
        exact h (Or.inr h2)

theorem getChild_some_of_mem {c : Char} {v : RadixNode} :
    ∀ {ch : List (Char × RadixNode)}, (ch.map Prod.fst).Nodup → (c, v) ∈ ch →
      getChild c ch = some v := by
  intro ch
  induction ch with
  | nil => intro _ h; exact absurd h (List.not_mem_nil _)
  | cons p rest ih =>
    obtain ⟨k, w⟩ := p
    intro hnd hm
    simp only [List.map_cons, List.nodup_cons] at hnd
    simp only [getChild]
    rcases List.mem_cons.mp hm with h1 | h1
    · cases h1
      rw [if_pos rfl]
    · by_cases hk : k = c
      · subst hk
        exact absurd (by simpa using List.mem_map_of_mem Prod.fst h1) hnd.1
      · rw [if_neg hk]
        exact ih hnd.2 h1

theorem getChild_perm {L1 L2 : List (Char × RadixNode)}
    (hperm : L1.Perm L2) (hnd : (L1.map Prod.fst).Nodup) (c : Char) :
    getChild c L1 = getChild c L2 := by
  have hnd2 : (L2.map Prod.fst).Nodup := ((hperm.map Prod.fst).nodup_iff).mp hnd
  cases hq : getChild c L1 with
  | some v =>
    rw [getChild_some_of_mem hnd2 (hperm.mem_iff.mp (getChild_mem hq))]
  | none =>
    rw [getChild_eq_none (fun hmem => (getChild_none_iff.mp hq)
      (((hperm.map Prod.fst).mem_iff).mpr hmem))]

/-- Adding non-empty words with pairwise-distinct first characters only
ever exercises insertion case 2 at the root: each word becomes one fresh
leaf child, appended in insertion order. -/
theorem build_flat :
    ∀ (ws : List (List Char)) (f : Nat) (L : List (Char × RadixNode)),
      (∀ w ∈ ws, w ≠ ([] : List Char)) →
      (∀ w ∈ ws, w.headD 'a' ∉ L.map Prod.fst) →
      (ws.map (fun w => w.headD 'a')).Nodup →
      RadixTrie.add_many (f+1) (RadixNode.mk [] false L) ws =
        RadixNode.mk [] false
          (L ++ ws.map (fun w => (w.headD 'a', RadixNode.mk w true []))) := by
  intro ws
  induction ws with
  | nil =>
    intro f L _ _ _
    simp [RadixTrie.add_many]
  | cons w ws ih =>
    intro f L hne hkeys hnd
    obtain ⟨c, w2, hw⟩ : ∃ c w2, w = c :: w2 := by
      cases w with
      | nil => exact absurd rfl (hne [] (List.mem_cons_self _ _))
      | cons c w2 => exact ⟨c, w2, rfl⟩
    subst hw
    have hcL : c ∉ L.map Prod.fst := by
      have h5 := hkeys (c :: w2) (List.mem_cons_self _ _)
      simpa using h5
    have hgc : getChild c L = none := getChild_eq_none hcL
    have hstep : RadixTrie.add (f+1) (RadixNode.mk [] false L) (c :: w2) =
        RadixNode.mk [] false (L ++ [(c, RadixNode.mk (c :: w2) true [])]) := by
      unfold RadixTrie.add
      rw [add_succ]
      rw [if_neg (by simp)]
      simp only [RadixNode.children_mk, RadixNode.pfx_mk, RadixNode.is_leaf_mk, hgc]
      rw [setChild_not_mem hcL]
    have hcons : RadixTrie.add_many (f+1) (RadixNode.mk [] false L) ((c :: w2) :: ws) =
        RadixTrie.add_many (f+1) (RadixTrie.add (f+1) (RadixNode.mk [] false L) (c :: w2)) ws :=
      rfl
    rw [hcons, hstep]
    rw [ih f (L ++ [(c, RadixNode.mk (c :: w2) true [])])
      (fun w3 hw3 => hne w3 (List.mem_cons_of_mem _ hw3))
      (by
        intro w3 hw3
        simp only [List.map_append, List.map_cons, List.map_nil, List.mem_append,
          List.mem_singleton]
        rintro (h5 | h5)
        · exact hkeys w3 (List.mem_cons_of_mem _ hw3) h5
        · simp only [List.map_cons, List.nodup_cons] at hnd
          exact hnd.1 (h5 ▸ List.mem_map_of_mem (fun w => w.headD 'a') hw3)
        )
      (by simp only [List.map_cons, List.nodup_cons] at hnd; exact hnd.2)]
    simp [List.append_assoc]

/-- If two non-leaf roots have children dictionaries that agree as lookup
functions, `find` gives identical results over them, both when started at
an arbitrary common node and when started at the respective roots. -/
theorem flat_agree (r1 r2 : RadixNode)
    (hlf1 : r1.is_leaf = false) (hlf2 : r2.is_leaf = false)
    (H : ∀ c, getChild c r1.children = getChild c r2.children) :
    ∀ fuel,
      (∀ (w : List Char) (loop : Bool) (node : RadixNode),
        RadixNode.find fuel r1 node w loop = RadixNode.find fuel r2 node w loop) ∧
      (∀ (w : List Char) (loop : Bool),
        RadixNode.find fuel r1 r1 w loop = RadixNode.find fuel r2 r2 w loop) := by
  intro fuel
  induction fuel with
  | zero => exact ⟨fun _ _ _ => rfl, fun _ _ => rfl⟩
  | succ f ih =>
    obtain ⟨ihN, ihR⟩ := ih
    have hcontrib : ∀ (child : RadixNode) (w : List Char) (loop : Bool),
        contrib f r1 child w loop = contrib f r2 child w loop := by
      intro child w loop
      unfold contrib
      rcases h3 : matchPre child.pfx w with ⟨m, rp, rw⟩
      cases rp with
      | nil =>
        cases rw with
        | nil => simp only [h3]
        | cons d rw2 =>
          simp only [h3]
          exact ihN (d :: rw2) loop child
      | cons r0 rp2 => simp only [h3]
    constructor
    · intro w loop node
      rw [find_succ, find_succ]
      cases w with
      | nil => rfl
      | cons c w2 =>
        cases hg : getChild c node.children with
        | none =>
          simp only [hg]
          cases hleaf : node.is_leaf with
          | true =>
            simp only [if_true]
            exact ihR (c :: w2) loop
          | false => simp only [Bool.false_eq_true, if_false]
        | some child =>
          simp only [hg]
          cases hbl : (node.is_leaf && loop) with
          | false =>
            simp only [Bool.false_eq_true, if_false]
            exact hcontrib child (c :: w2) loop
          | true =>
            simp only [if_true]
            rw [hcontrib child (c :: w2) loop, H c]
            cases hr1 : contrib f r2 child (c :: w2) loop with
            | ok k1 =>
              simp only [hr1]
              cases hg2 : getChild c r2.children with
              | none => simp only [hg2]
              | some child2 =>
                simp only [hg2]
                rw [hcontrib child2 (c :: w2) loop]
            | err => simp only [hr1]
            | spin => simp only [hr1]
    · intro w loop
      rw [find_succ, find_succ]
      cases w with
      | nil => rfl
      | cons c w2 =>
        cases hg : getChild c r2.children with
        | none =>
          have hg1 : getChild c r1.children = none := (H c).trans hg
          simp only [hg, hg1, hlf1, hlf2, Bool.false_eq_true, if_false]
        | some child =>
          have hg1 : getChild c r1.children = some child := (H c).trans hg
          simp only [hg, hg1, hlf1, hlf2, Bool.false_and, Bool.false_eq_true, if_false]
          exact hcontrib child (c :: w2) loop

/-- C1 counterexample: after adding `a`, `aa`, `aaa` in that order, the
claim expects `is_word("aaaa")` to be false, but the code returns true:
at the last chain node the leaf fallback delegates to `root.find("a")`,
so `"aaaa"` is accepted as `"aaa"` followed by the word `"a"` even though
`loop` is disabled. -/
theorem claim_C1_cex : RadixTrie.is_word 40 t123 ['a', 'a', 'a', 'a'] ≠ some false := by
  decide

/-- C1 (amended): after adding `a`, `aa`, `aaa` in that order, `is_word`
is true for each of the three, and — contrary to the original claim — it
is also true for `aaaa` and `aaaaa`, because the unconditional leaf
fallback to `root.find` lets a membership query succeed across word
boundaries. -/
theorem claim_C1 :
    RadixTrie.is_word 40 t123 ['a'] = some true ∧
    RadixTrie.is_word 40 t123 ['a', 'a'] = some true ∧
    RadixTrie.is_word 40 t123 ['a', 'a', 'a'] = some true ∧
    RadixTrie.is_word 40 t123 ['a', 'a', 'a', 'a'] = some true ∧
    RadixTrie.is_word 40 t123 ['a', 'a', 'a', 'a', 'a'] = some true := by
  decide

/-- C2: re-adding a word is not idempotent.  Re-adding `"a"` falls through
case 1 (the node is already a leaf) into case 2 at the leaf node, creating
a spurious child: `size()` grows from 2 to 3, contradicting the claim that
a second `add(w)` leaves `size()` unchanged. -/
theorem claim_C2 :
    RadixTrie.size 20 tA = 2 ∧ RadixTrie.size 20 tAA = 3 := by
  decide

/-- C3 counterexample: after `add("")` the root is marked as a leaf, and
`find("x")` — whose first character keys no child — delegates from the
root to the root itself with unchanged arguments, recursing forever. -/
theorem claim_C3_cex : FindDiverges tEps tEps ['x'] false := by
  intro fuel
  induction fuel with
  | zero => rfl
  | succ f ih =>
    have hg : getChild 'x' tEps.children = none := rfl
    have hl : tEps.is_leaf = true := rfl
    rw [find_succ]
    simp only [hg, hl, if_true]
    exact ih

/-- C3 (amended): `add` terminates on every state reachable by `add`
calls, with no restriction on the words added; `find` never exhausts its
fuel once the fuel reaches `2*|w| + 2` provided the state is reachable by
`add` calls of non-empty words (so the root is not a leaf).  The original
claim fails only for `find` on states where the root has been marked a
leaf by `add("")`. -/
theorem claim_C3 (t : RadixNode) (w : List Char) (flag loop : Bool) (fuel : Nat)
    (hreach : Reachable t) (hfu : 2 * w.length + 2 ≤ fuel) :
    (∃ f2, RadixNode.add f2 t w flag ≠ AddRes.spin) ∧
    (ReachableNE t → RadixNode.find fuel t t w loop ≠ FindRes.spin) := by
  obtain ⟨hInv, hpfx⟩ := reachable_props hreach
  refine ⟨add_nospin hInv w flag, fun hne => ?_⟩
  obtain ⟨hInv2, _, hleaf⟩ := reachableNE_props hne
  exact (find_nospin t hInv2 hleaf fuel).1 w loop hfu

theorem claim_C3_witness :
    Reachable emptyTrie ∧ ReachableNE emptyTrie ∧
    ((∃ f2, RadixNode.add f2 emptyTrie ['a'] false ≠ AddRes.spin) ∧
      RadixNode.find 10 emptyTrie emptyTrie ['a'] false ≠ FindRes.spin) := by
  have hre : Reachable emptyTrie := ⟨1, [], rfl⟩
  have hne : ReachableNE emptyTrie :=
    ⟨1, [], fun w hw => absurd hw (List.not_mem_nil _), rfl⟩
  have h := claim_C3 emptyTrie ['a'] false false 10 hre (by decide)
  exact ⟨hre, hne, h.1, h.2 hne⟩

/-- C4 counterexample: with the words `a` and `ab` stored (and `b` not a
child of the root), the wrap candidate `root.children.get('b')` is `None`
during `find("ab", wrap=true)` at the node for `a`, and the
`assert child is not None` fails — an exception, not a count. -/
theorem claim_C4_cex :
    RadixNode.find 50 tAab tAab ['a', 'b'] true = FindRes.err ∧
    RadixTrie.is_sentence 50 tAab ['a', 'b'] = none := by
  decide

/-- C4 (amended): for tries reachable by adds of non-empty words, every
non-empty word, and `wrap = false`, `find` returns a (non-negative) count
without raising; with `wrap = true` the internal assertion can fail (see
the counterexample), and with a leaf root (`add("")`) the recursion does
not terminate. -/
theorem claim_C4 (t : RadixNode) (w : List Char) (fuel : Nat)
    (hreach : ReachableNE t) (hw : w ≠ []) (hfu : 2 * w.length + 2 ≤ fuel) :
    (∃ k, RadixNode.find fuel t t w false = FindRes.ok k) ∧
    (∃ b, RadixTrie.is_word fuel t w = some b) := by
  obtain ⟨hInv, hpfx, hleaf⟩ := reachableNE_props hreach
  obtain ⟨k, hk⟩ := (find_ok t hInv hleaf fuel).1 w hw hfu
  refine ⟨⟨k, hk⟩, ⟨decide (0 < k), ?_⟩⟩
  unfold RadixTrie.is_word
  rw [hk]

theorem claim_C4_witness :
    ReachableNE emptyTrie ∧
    ((∃ k, RadixNode.find 10 emptyTrie emptyTrie ['a'] false = FindRes.ok k) ∧
      (∃ b, RadixTrie.is_word 10 emptyTrie ['a'] = some b)) := by
  have hre : ReachableNE emptyTrie :=
    ⟨1, [], fun w hw => absurd hw (List.not_mem_nil _), rfl⟩
  exact ⟨hre, claim_C4 emptyTrie ['a'] 10 hre (by decide) (by decide)⟩

/-- C5 counterexample: `find` has no empty-word base case; on the empty
word it evaluates `word[0]` and raises `IndexError` instead of returning
`1 if n.is_leaf else 0` — here, at the fresh (non-leaf) root, the claim
expects `0`, i.e. `is_word("") = false`, but an exception is raised. -/
theorem claim_C5_cex :
    RadixNode.find 10 emptyTrie emptyTrie [] false = FindRes.err ∧
    RadixTrie.is_word 10 emptyTrie [] ≠ some false := by
  decide

/-- C5 (amended): at every node and for both wrap values, `find("")`
raises `IndexError` (`word[0]` on the empty string), so `is_word("")`,
`is_sentence("")` and `possible_sentences("")` all raise instead of
reflecting the root's leaf flag. -/
theorem claim_C5 (root n : RadixNode) (loop : Bool) (fuel : Nat) :
    RadixNode.find (fuel+1) root n [] loop = FindRes.err ∧
    RadixTrie.is_word (fuel+1) root [] = none ∧
    RadixTrie.is_sentence (fuel+1) root [] = none ∧
    RadixTrie.possible_sentences (fuel+1) root [] = none :=
  ⟨rfl, rfl, rfl, rfl⟩

/-- C6: when no child of `n` is keyed by the first character of the
(non-empty) remaining word, `find` returns `root.find(word, wrap)` if `n`
is a leaf and `0` otherwise, for either value of the wrap flag. -/
theorem claim_C6 (root n : RadixNode) (c : Char) (w2 : List Char) (loop : Bool) (fuel : Nat)
    (hg : getChild c n.children = none) :
    RadixNode.find (fuel+1) root n (c :: w2) loop =
      (if n.is_leaf then RadixNode.find fuel root root (c :: w2) loop else FindRes.ok 0) := by
  rw [find_succ]
  simp only [hg]

theorem claim_C6_witness :
    getChild 'b' (RadixNode.mk ['a'] true []).children = none ∧
    RadixNode.find 6 tAB (RadixNode.mk ['a'] true []) ['b'] false =
      (if (RadixNode.mk ['a'] true []).is_leaf then RadixNode.find 5 tAB tAB ['b'] false
       else FindRes.ok 0) :=
  ⟨rfl, claim_C6 tAB (RadixNode.mk ['a'] true []) 'b' [] false 5 rfl⟩

/-- C7: after adding `a`, `ab`, `b`, there are exactly two segmentations
of `"ab"` (`"a"+"b"` and `"ab"`), and `is_sentence("ab")` is true. -/
theorem claim_C7 :
    RadixTrie.possible_sentences 50 tSent ['a', 'b'] = some 2 ∧
    RadixTrie.is_sentence 50 tSent ['a', 'b'] = some true := by
  decide

/-- C8: the memoization cache of `find` is keyed on
`(node identity, word, wrap)` and is never invalidated by `add`.  In the
heap model: after `add("a")`, querying `is_word("ab")` returns count 0 and
caches it; after `add("ab")` the same query still returns the stale 0 from
the cache, while the same query against the mutated tree with an empty
cache returns 1. -/
theorem claim_C8 :
    c8q1.1 = some 0 ∧
    (findA 50 c8ns2 0 c8q1.2 0 ['a', 'b'] false).1 = some 0 ∧
    (findA 50 c8ns2 0 [] 0 ['a', 'b'] false).1 = some 1 := by
  decide

/-- C9 counterexample: `{"ab", "aa"}` added in the two orders yields
different `is_word` results on `"a"`: adding `"aa"` into the trie holding
only `"ab"` splits the edge and then case 1 marks the intermediate `"a"`
node as a leaf (storing `"a"` instead of `"aa"`), so `is_word("a")` is
true after `ab, aa` but false after `aa, ab`. -/
theorem claim_C9_cex :
    List.Perm [['a', 'b'], ['a', 'a']] [['a', 'a'], ['a', 'b']] ∧
    RadixTrie.is_word 30 tOrd1 ['a'] = some true ∧
    RadixTrie.is_word 30 tOrd2 ['a'] = some false :=
  ⟨List.Perm.swap ['a', 'a'] ['a', 'b'] [], by decide, by decide⟩

/-- C9 (amended): insertion-order independence of `is_word` holds for
sets of non-empty words in which no two words share a first character
(each insertion then lands in its own root child via case 2); with a
shared first character it fails (see the counterexample). -/
theorem claim_C9 (ws1 ws2 : List (List Char)) (f qfuel : Nat) (x : List Char)
    (hne : ∀ w ∈ ws1, w ≠ ([] : List Char))
    (hnd : (ws1.map (fun w => w.headD 'a')).Nodup)
    (hperm : ws1.Perm ws2) :
    RadixTrie.is_word qfuel (RadixTrie.add_many (f+1) emptyTrie ws1) x =
      RadixTrie.is_word qfuel (RadixTrie.add_many (f+1) emptyTrie ws2) x := by
  have hne2 : ∀ w ∈ ws2, w ≠ ([] : List Char) := fun w hw => hne w (hperm.mem_iff.mpr hw)
  have hnd2 : (ws2.map (fun w => w.headD 'a')).Nodup := ((hperm.map _).nodup_iff).mp hnd
  have he : emptyTrie = RadixNode.mk [] false [] := rfl
  have h1 := build_flat ws1 f [] hne (by simp) hnd
  have h2 := build_flat ws2 f [] hne2 (by simp) hnd2
  rw [List.nil_append] at h1 h2
  rw [he, h1, h2]
  have hpermL : (ws1.map (fun w => (w.headD 'a', RadixNode.mk w true []))).Perm
      (ws2.map (fun w => (w.headD 'a', RadixNode.mk w true []))) := hperm.map _
  have hndL : ((ws1.map (fun w => (w.headD 'a', RadixNode.mk w true []))).map
      Prod.fst).Nodup := by
    rw [List.map_map]
    exact hnd
  have H : ∀ c, getChild c (RadixNode.mk [] false
        (ws1.map (fun w => (w.headD 'a', RadixNode.mk w true [])))).children =
      getChild c (RadixNode.mk [] false
        (ws2.map (fun w => (w.headD 'a', RadixNode.mk w true [])))).children :=
    fun c => getChild_perm hpermL hndL c
  unfold RadixTrie.is_word
  rw [(flat_agree
    (RadixNode.mk [] false (ws1.map (fun w => (w.headD 'a', RadixNode.mk w true []))))
    (RadixNode.mk [] false (ws2.map (fun w => (w.headD 'a', RadixNode.mk w true []))))
    rfl rfl H qfuel).2 x false]

theorem claim_C9_witness :
    (∀ w ∈ [['a'], ['b']], w ≠ ([] : List Char)) ∧
    ((([['a'], ['b']] : List (List Char)).map (fun w => w.headD 'a')).Nodup) ∧
    List.Perm [['a'], ['b']] [['b'], ['a']] ∧
    RadixTrie.is_word 20 (RadixTrie.add_many 31 emptyTrie [['a'], ['b']]) ['a', 'b'] =
      RadixTrie.is_word 20 (RadixTrie.add_many 31 emptyTrie [['b'], ['a']]) ['a', 'b'] :=
  ⟨by decide, by decide, List.Perm.swap ['b'] ['a'] [],
    claim_C9 [['a'], ['b']] [['b'], ['a']] 30 20 ['a', 'b'] (by decide) (by decide)
      (List.Perm.swap ['b'] ['a'] [])⟩

/-- C10: every sequence of `add` calls starting from a fresh trie
preserves the structural invariant (each child key is the first character
of that child's prefix, so child prefixes are non-empty and no two
children of a node share a first character), and the root's prefix stays
empty. -/
theorem claim_C10 (fuel : Nat) (ws : List (List Char)) :
    TrieInv (RadixTrie.add_many fuel emptyTrie ws) ∧
    (RadixTrie.add_many fuel emptyTrie ws).pfx = [] := by
  obtain ⟨hInv, hpfx, _⟩ := add_many_props ws fuel emptyTrie trieInv_empty
  exact ⟨hInv, hpfx⟩
